import Mathlib

/-!
Verification development for the churn-model repository: a shallow embedding
of the preprocessing steps of `3_model_building.ipynb` and of the
`CategoricalEncoder` / `ExplainedModel` wrapper the notebook uses.  The
wrapper's own module (`churnexplainer.py`) is not among the repository files
here, so its operations are modelled from the specification's description
(each such definition says so in its doc comment); the notebook cells are
translated directly.
-/

namespace Churn

/-- A cell value of the data table: a string label, an integer, or a
null/NaN cell (pandas `np.nan` and SQL NULL are both modelled as `vNull`).
Fractional numerics are irrelevant to every claim treated here, so numbers
are carried as integers. -/
inductive Value where
  | vStr : String → Value
  | vInt : Int → Value
  | vNull : Value
deriving DecidableEq, Repr

/-- Strict lexicographic comparison of character lists (the order `sorted`
categories use on strings), written as an executable Bool function. -/
def strLt : List Char → List Char → Bool
  | [], [] => false
  | [], _ :: _ => true
  | _ :: _, [] => false
  | a :: as, b :: bs => if a < b then true else if b < a then false else strLt as bs

theorem strLt_irrefl (l : List Char) : strLt l l = false := by
  induction l with
  | nil => rfl
  | cons a as ih => simp [strLt, lt_irrefl, ih]

theorem strLt_cons_true {x y : Char} {xs ys : List Char}
    (h : strLt (x :: xs) (y :: ys) = true) : x < y ∨ (x = y ∧ strLt xs ys = true) := by
  simp only [strLt] at h
  by_cases hxy : x < y
  · exact Or.inl hxy
  · by_cases hyx : y < x
    · simp [hxy, hyx] at h
    · exact Or.inr ⟨le_antisymm (not_lt.mp hyx) (not_lt.mp hxy), by simpa [hxy, hyx] using h⟩

theorem strLt_cons_of {x y : Char} {xs ys : List Char}
    (h : x < y ∨ (x = y ∧ strLt xs ys = true)) : strLt (x :: xs) (y :: ys) = true := by
  rcases h with h | ⟨rfl, h⟩
  · simp [strLt, h]
  · simp [strLt, lt_irrefl, h]

theorem strLt_cons_false {x y : Char} {xs ys : List Char}
    (h : strLt (x :: xs) (y :: ys) = false) : y < x ∨ (x = y ∧ strLt xs ys = false) := by
  simp only [strLt] at h
  by_cases hxy : x < y
  · simp [hxy] at h
  · by_cases hyx : y < x
    · exact Or.inl hyx
    · exact Or.inr ⟨le_antisymm (not_lt.mp hyx) (not_lt.mp hxy), by simpa [hxy, hyx] using h⟩

theorem strLt_trans {a b c : List Char} (h1 : strLt a b = true) (h2 : strLt b c = true) :
    strLt a c = true := by
  induction a generalizing b c with
  | nil =>
    cases b with
    | nil => simp [strLt] at h1
    | cons y ys =>
      cases c with
      | nil => simp [strLt] at h2
      | cons z zs => simp [strLt]
  | cons x xs ih =>
    cases b with
    | nil => simp [strLt] at h1
    | cons y ys =>
      cases c with
      | nil => simp [strLt] at h2
      | cons z zs =>
        rcases strLt_cons_true h1 with hxy | ⟨hxy, h1t⟩ <;>
          rcases strLt_cons_true h2 with hyz | ⟨hyz, h2t⟩
        · exact strLt_cons_of (Or.inl (lt_trans hxy hyz))
        · exact strLt_cons_of (Or.inl (hyz ▸ hxy))
        · exact strLt_cons_of (Or.inl (hxy ▸ hyz))
        · exact strLt_cons_of (Or.inr ⟨hxy.trans hyz, ih h1t h2t⟩)

theorem strLt_conn {a b : List Char} (h1 : strLt a b = false) (h2 : strLt b a = false) :
    a = b := by
  induction a generalizing b with
  | nil =>
    cases b with
    | nil => rfl
    | cons y ys => simp [strLt] at h1
  | cons x xs ih =>
    cases b with
    | nil => simp [strLt] at h2
    | cons y ys =>
      rcases strLt_cons_false h1 with hyx | ⟨hxy, h1t⟩
      · rcases strLt_cons_false h2 with hxy | ⟨hyx2, h2t⟩
        · exact absurd hxy (lt_asymm hyx)
        · exact absurd hyx (hyx2 ▸ lt_irrefl y)
      · rcases strLt_cons_false h2 with hxy2 | ⟨hyx2, h2t⟩
        · exact absurd hxy2 (hxy ▸ lt_irrefl x)
        · exact congrArg₂ (· :: ·) hxy (ih h1t h2t)

/-- Strict total order on cell values: nulls, then integers, then strings. -/
def vlt : Value → Value → Bool
  | .vNull, .vNull => false
  | .vNull, _ => true
  | .vInt _, .vNull => false
  | .vInt m, .vInt n => decide (m < n)
  | .vInt _, .vStr _ => true
  | .vStr _, .vNull => false
  | .vStr _, .vInt _ => false
  | .vStr s, .vStr t => strLt s.data t.data

theorem vlt_irrefl (a : Value) : vlt a a = false := by
  cases a with
  | vStr s => simpa [vlt] using strLt_irrefl s.data
  | vInt n => simp [vlt]
  | vNull => rfl

theorem vlt_trans {a b c : Value} (h1 : vlt a b = true) (h2 : vlt b c = true) :
    vlt a c = true := by
  cases a <;> cases b <;> cases c <;> simp_all [vlt]
  · exact strLt_trans h1 h2
  · omega

theorem string_data_ext {s t : String} (h : s.data = t.data) : s = t := by
  cases s; cases t; simp_all

theorem vlt_conn {a b : Value} (h1 : vlt a b = false) (h2 : vlt b a = false) : a = b := by
  cases a <;> cases b <;> simp_all [vlt]
  · exact string_data_ext (strLt_conn h1 h2)
  · omega

theorem vlt_asymm {a b : Value} (h : vlt a b = true) : vlt b a = false := by
  by_contra hc
  have hba : vlt b a = true := by
    cases hv : vlt b a
    · exact absurd hv hc
    · rfl
  have := vlt_trans h hba
  simp [vlt_irrefl] at this

/-- Insert a value into a strictly `vlt`-sorted duplicate-free list, keeping
it sorted and duplicate-free. -/
def insertSorted (v : Value) : List Value → List Value
  | [] => [v]
  | w :: ws =>
    if v = w then w :: ws
    else if vlt v w then v :: w :: ws
    else w :: insertSorted v ws

/-- The distinct values of a list in the one deterministic (sorted) order:
the class list `fit` records for a categorical column. -/
def sortedDistinct (l : List Value) : List Value := l.foldr insertSorted []

/-- `vlt` as a relation, for `List.Pairwise`. -/
def vltP (a b : Value) : Prop := vlt a b = true

theorem mem_insertSorted {x v : Value} {l : List Value} :
    x ∈ insertSorted v l ↔ x = v ∨ x ∈ l := by
  induction l with
  | nil => simp [insertSorted]
  | cons w ws ih =>
    by_cases hvw : v = w
    · subst hvw
      simp only [insertSorted, if_pos rfl]
      constructor
      · intro h; exact Or.inr h
      · rintro (rfl | h)
        · exact List.mem_cons_self _ _
        · exact h
    · by_cases hlt : vlt v w = true
      · simp [insertSorted, hvw, hlt]
      · simp only [insertSorted, if_neg hvw, if_neg hlt]
        simp only [List.mem_cons, ih]
        tauto

theorem pairwise_insertSorted {v : Value} {l : List Value}
    (hs : l.Pairwise vltP) : (insertSorted v l).Pairwise vltP := by
  induction l with
  | nil => simp [insertSorted]
  | cons w ws ih =>
    rcases List.pairwise_cons.mp hs with ⟨hw, hws⟩
    by_cases hvw : v = w
    · simpa [insertSorted, hvw] using hs
    · by_cases hlt : vlt v w = true
      · have hun : insertSorted v (w :: ws) = v :: w :: ws := by
          simp [insertSorted, hvw, hlt]
        rw [hun]
        refine List.pairwise_cons.mpr ⟨?_, hs⟩
        intro b hb
        rcases List.mem_cons.mp hb with rfl | hb
        · exact hlt
        · exact vlt_trans hlt (hw b hb)
      · have hwv : vlt w v = true := by
          cases hv : vlt w v
          · exact absurd (vlt_conn (by simpa using hlt) hv) hvw
          · rfl
        simp only [insertSorted, if_neg hvw, if_neg hlt]
        refine List.pairwise_cons.mpr ⟨?_, ih hws⟩
        intro b hb
        rcases mem_insertSorted.mp hb with rfl | hb
        · exact hwv
        · exact hw b hb

theorem mem_sortedDistinct {x : Value} {l : List Value} :
    x ∈ sortedDistinct l ↔ x ∈ l := by
  induction l with
  | nil => simp [sortedDistinct]
  | cons a as ih =>
    simp only [sortedDistinct, List.foldr_cons]
    rw [show List.foldr insertSorted [] as = sortedDistinct as from rfl] at *
    simp [mem_insertSorted, ih]

theorem pairwise_sortedDistinct (l : List Value) : (sortedDistinct l).Pairwise vltP := by
  induction l with
  | nil => simp [sortedDistinct]
  | cons a as ih => exact pairwise_insertSorted ih

theorem pairwise_sorted_ext {l1 l2 : List Value}
    (h1 : l1.Pairwise vltP) (h2 : l2.Pairwise vltP)
    (hm : ∀ x, x ∈ l1 ↔ x ∈ l2) : l1 = l2 := by
  induction l1 generalizing l2 with
  | nil =>
    cases l2 with
    | nil => rfl
    | cons y ys => exact absurd ((hm y).mpr (List.mem_cons_self y ys)) (List.not_mem_nil y)
  | cons x xs ih =>
    cases l2 with
    | nil => exact absurd ((hm x).mp (List.mem_cons_self x xs)) (List.not_mem_nil x)
    | cons y ys =>
      rcases List.pairwise_cons.mp h1 with ⟨hx, hxs⟩
      rcases List.pairwise_cons.mp h2 with ⟨hy, hys⟩
      have hxy : x = y := by
        rcases List.mem_cons.mp ((hm x).mp (List.mem_cons_self x xs)) with h | hxin
        · exact h
        · rcases List.mem_cons.mp ((hm y).mpr (List.mem_cons_self y ys)) with h | hyin
          · exact h.symm
          · exact absurd (hx y hyin) (by simp [vltP, vlt_asymm (hy x hxin)])
      subst hxy
      refine congrArg (x :: ·) (ih hxs hys ?_)
      intro z
      constructor
      · intro hz
        rcases List.mem_cons.mp ((hm z).mp (List.mem_cons.mpr (Or.inr hz))) with rfl | h
        · exact absurd (hx z hz) (by simp [vltP, vlt_irrefl])
        · exact h
      · intro hz
        rcases List.mem_cons.mp ((hm z).mpr (List.mem_cons.mpr (Or.inr hz))) with rfl | h
        · exact absurd (hy z hz) (by simp [vltP, vlt_irrefl])
        · exact h

/-- The class list is determined by the set of values alone: same membership,
same (sorted) enumeration. -/
theorem sortedDistinct_canonical {l1 l2 : List Value}
    (hm : ∀ x, x ∈ l1 ↔ x ∈ l2) : sortedDistinct l1 = sortedDistinct l2 :=
  pairwise_sorted_ext (pairwise_sortedDistinct l1) (pairwise_sortedDistinct l2)
    (fun x => by simp [mem_sortedDistinct, hm x])

/-- First-match association lookup (how a named column or a store key is
read). -/
def assocGet {κ α : Type} [DecidableEq κ] : List (κ × α) → κ → Option α
  | [], _ => none
  | (k, a) :: rest, c => if k = c then some a else assocGet rest c

/-- A record of the table: named cells (a pandas row restricted to the
columns it mentions). -/
abbrev Row := List (String × Value)

/-- A data table: records in order (a pandas `DataFrame`). -/
abbrev Table := List Row

/-- The value of column `c` in row `r`, when the row has that column. -/
def rowGet (r : Row) (c : String) : Option Value := assocGet r c

/-- All values present in column `c`, in row order. -/
def columnValues (t : Table) (c : String) : List Value :=
  t.filterMap (fun r => rowGet r c)

/-- Column spec: (name, is-the-column-Categorical) pairs, exactly the `cols`
tuple of `3_model_building.ipynb`. -/
abbrev ColSpec := List (String × Bool)

/-- The error taxonomy of spec section 7. -/
inductive Err where
  | schemaError
  | configurationError
  | unseenCategoryError (col : String) (v : Value)
  | validationError
  | notFoundError
deriving DecidableEq, Repr

/-- Fallible map over a list, failing at the first failing element and
producing no partial output (the behaviour of a Python loop that raises). -/
def mapME {α β : Type} (f : α → Except Err β) : List α → Except Err (List β)
  | [] => .ok []
  | a :: as =>
    match f a with
    | .error e => .error e
    | .ok b =>
      match mapME f as with
      | .error e => .error e
      | .ok bs => .ok (b :: bs)

theorem mapME_ok_length {α β : Type} {f : α → Except Err β} {l : List α} {bs : List β}
    (h : mapME f l = .ok bs) : bs.length = l.length := by
  induction l generalizing bs with
  | nil => simp [mapME] at h; simp [← h]
  | cons a as ih =>
    simp only [mapME] at h
    cases hfa : f a with
    | error e => simp [hfa] at h
    | ok b =>
      cases hrest : mapME f as with
      | error e => simp [hfa, hrest] at h
      | ok cs =>
        simp [hfa, hrest] at h
        simp [← h, ih hrest]

theorem mapME_ok_get {α β : Type} {f : α → Except Err β} {l : List α} {bs : List β}
    (h : mapME f l = .ok bs) :
    ∀ i (hi : i < l.length) (hb : i < bs.length),
      f (l.get ⟨i, hi⟩) = .ok (bs.get ⟨i, hb⟩) := by
  induction l generalizing bs with
  | nil => intro i hi; simp at hi
  | cons a as ih =>
    simp only [mapME] at h
    cases hfa : f a with
    | error e => simp [hfa] at h
    | ok b =>
      cases hrest : mapME f as with
      | error e => simp [hfa, hrest] at h
      | ok cs =>
        simp only [hfa, hrest] at h
        cases h
        intro i hi hb
        cases i with
        | zero => simpa using hfa
        | succ j => exact ih hrest j (by simpa using hi) (by simpa using hb)

theorem mapME_ok_mem {α β : Type} {f : α → Except Err β} {l : List α} {bs : List β}
    (h : mapME f l = .ok bs) : ∀ a ∈ l, ∃ b, f a = .ok b := by
  induction l generalizing bs with
  | nil => simp
  | cons x as ih =>
    simp only [mapME] at h
    cases hfa : f x with
    | error e => simp [hfa] at h
    | ok b =>
      cases hrest : mapME f as with
      | error e => simp [hfa, hrest] at h
      | ok cs =>
        intro a ha
        rcases List.mem_cons.mp ha with rfl | ha
        · exact ⟨b, hfa⟩
        · exact ih hrest a ha

theorem mapME_ok_of_all {α β : Type} {f : α → Except Err β} {l : List α}
    (h : ∀ a ∈ l, ∃ b, f a = .ok b) : ∃ bs, mapME f l = .ok bs := by
  induction l with
  | nil => exact ⟨[], rfl⟩
  | cons a as ih =>
    rcases h a (List.mem_cons_self a as) with ⟨b, hb⟩
    rcases ih (fun x hx => h x (List.mem_cons.mpr (Or.inr hx))) with ⟨bs, hbs⟩
    exact ⟨b :: bs, by simp [mapME, hb, hbs]⟩

theorem mapME_error_mem {α β : Type} {f : α → Except Err β} {l : List α} {e : Err}
    (h : mapME f l = .error e) : ∃ a ∈ l, f a = .error e := by
  induction l with
  | nil => simp [mapME] at h
  | cons a as ih =>
    simp only [mapME] at h
    cases hfa : f a with
    | error e2 =>
      simp only [hfa] at h
      cases h
      exact ⟨a, List.mem_cons_self a as, hfa⟩
    | ok b =>
      cases hrest : mapME f as with
      | error e2 =>
        simp only [hfa, hrest] at h
        cases h
        rcases ih hrest with ⟨x, hx, hfx⟩
        exact ⟨x, List.mem_cons.mpr (Or.inr hx), hfx⟩
      | ok cs => simp [hfa, hrest] at h

theorem mapME_congr_ok {α β : Type} {f : α → Except Err β} {l : List α} {bs : List β}
    (hlen : bs.length = l.length)
    (h : ∀ i (hi : i < l.length) (hb : i < bs.length),
      f (l.get ⟨i, hi⟩) = .ok (bs.get ⟨i, hb⟩)) :
    mapME f l = .ok bs := by
  induction l generalizing bs with
  | nil =>
    cases bs with
    | nil => rfl
    | cons b bs => simp at hlen
  | cons a as ih =>
    cases bs with
    | nil => simp at hlen
    | cons b bs =>
      have h0 := h 0 (by simp) (by simp)
      simp only [List.get] at h0
      have hrest : mapME f as = .ok bs :=
        ih (by simpa using hlen)
          (fun i hi hb => by simpa using h (i + 1) (by simpa using hi) (by simpa using hb))
      simp [mapME, h0, hrest]

/-- Modelled from the spec: the fitted state of `CategoricalEncoder`
(`churnexplainer.py` is not among the repository's files, only its callers
are).  Spec section 3: "for each categorical column, an ordered set of
observed category labels (the category's classes) and a stable mapping from
column name to its position-index in the output matrix".  `spec` carries the
column order (hence each column's matrix position is its index in `spec`)
and the categorical flags; `classes` the per-categorical-column ordered
class lists. -/
structure CategoricalEncoder where
  spec : ColSpec
  classes : List (String × List Value)
deriving DecidableEq, Repr

/-- Modelled from the spec (section 4.1 `fit`): for every column flagged
categorical, enumerate its distinct values in a deterministic (sorted) order
and record that ordering as the column's class list; fail with
`SchemaError` if a named column is absent from the table, and
`ConfigurationError` if the column spec is empty. -/
def CategoricalEncoder.fit (t : Table) (spec : ColSpec) : Except Err CategoricalEncoder :=
  if spec.isEmpty then .error .configurationError
  else if spec.all (fun cb => t.all (fun r => (rowGet r cb.1).isSome)) then
    .ok { spec := spec,
          classes := spec.filterMap (fun cb =>
            if cb.2 then some (cb.1, sortedDistinct (columnValues t cb.1)) else none) }
  else .error .schemaError

/-- Modelled from the spec (section 4.1 `transform`): one cell of the output
matrix — a categorical value is replaced by its integer position within the
column's recorded class list (`UnseenCategoryError` if it was not seen
during fitting), a numeric value passes through as-is. -/
def transformCell (e : CategoricalEncoder) (r : Row) (cb : String × Bool) :
    Except Err Value :=
  match rowGet r cb.1 with
  | none => .error .schemaError
  | some v =>
    if cb.2 then
      match assocGet e.classes cb.1 with
      | none => .error .schemaError
      | some cs =>
        if v ∈ cs then .ok (.vInt (cs.indexOf v)) else .error (.unseenCategoryError cb.1 v)
    else .ok v

/-- Modelled from the spec: one matrix row, cells in the fixed column order
of the fitted spec. -/
def transformRow (e : CategoricalEncoder) (r : Row) : Except Err (List Value) :=
  mapME (transformCell e r) e.spec

/-- Modelled from the spec (section 4.1 `transform`): rows in input order;
any failing cell fails the whole call with no partial output. -/
def CategoricalEncoder.transform (e : CategoricalEncoder) (t : Table) :
    Except Err (List (List Value)) :=
  mapME (transformRow e) t

/-- Modelled from the spec (section 4.1 `fit_transform`): convenience
composition, fit then transform the same table on the fitted encoder. -/
def fitTransform (t : Table) (spec : ColSpec) : Except Err (List (List Value)) :=
  (CategoricalEncoder.fit t spec).bind (fun e => e.transform t)

/-- Modelled from the spec (section 4.1 `inverse_transform`): one cell back —
an integer-coded categorical cell is mapped to the label at that position of
the column's class list, a numeric cell passes through. -/
def invCell (e : CategoricalEncoder) (cb : String × Bool) (v : Value) : Except Err Value :=
  if cb.2 then
    match assocGet e.classes cb.1 with
    | none => .error .schemaError
    | some cs =>
      match v with
      | .vInt n =>
        if n < 0 then .error .notFoundError
        else
          match cs.get? n.toNat with
          | some w => .ok w
          | none => .error .notFoundError
      | _ => .error .notFoundError
  else .ok v

/-- Modelled from the spec: one matrix row back to labels, walking the
fitted column spec and the row's cells in parallel. -/
def invCells (e : CategoricalEncoder) : ColSpec → List Value → Except Err (List Value)
  | [], [] => .ok []
  | [], _ :: _ => .error .schemaError
  | _ :: _, [] => .error .schemaError
  | cb :: spec, v :: vs =>
    match invCell e cb v with
    | .error err => .error err
    | .ok w =>
      match invCells e spec vs with
      | .error err => .error err
      | .ok ws => .ok (w :: ws)

/-- Modelled from the spec (section 4.1 `inverse_transform`): maps
integer-coded categorical columns of a matrix back to their original
labels. -/
def CategoricalEncoder.invTransform (e : CategoricalEncoder) (m : List (List Value)) :
    Except Err (List (List Value)) :=
  mapME (invCells e e.spec) m

/-- The raw values of a row at the spec's columns, in spec order (what
`inverse_transform` should recover). -/
def projectRow (spec : ColSpec) (r : Row) : List Value :=
  spec.map (fun cb => (rowGet r cb.1).getD .vNull)

/-- Every row of `t` has every column named by `spec` (the conformance
precondition of spec sections 3 and 8). -/
abbrev conforms (t : Table) (spec : ColSpec) : Prop :=
  ∀ cb ∈ spec, ∀ r ∈ t, (rowGet r cb.1).isSome = true

theorem fit_ok_eq {t : Table} {spec : ColSpec} {e : CategoricalEncoder}
    (h : CategoricalEncoder.fit t spec = .ok e) :
    e.spec = spec ∧
    e.classes = spec.filterMap (fun cb =>
      if cb.2 then some (cb.1, sortedDistinct (columnValues t cb.1)) else none) ∧
    conforms t spec := by
  unfold CategoricalEncoder.fit at h
  split_ifs at h with h1 h2
  cases h
  refine ⟨rfl, rfl, ?_⟩
  intro cb hcb r hr
  have := (List.all_eq_true.mp h2) cb hcb
  exact (List.all_eq_true.mp this) r hr

theorem assocGet_fit_classes_mem (t : Table) (spec : ColSpec) {c : String}
    (hc : (c, true) ∈ spec) :
    assocGet (spec.filterMap (fun cb =>
        if cb.2 then some (cb.1, sortedDistinct (columnValues t cb.1)) else none)) c
      = some (sortedDistinct (columnValues t c)) := by
  induction spec with
  | nil => cases hc
  | cons cb rest ih =>
    rcases List.mem_cons.mp hc with heq | hmem
    · cases heq
      simp [List.filterMap_cons, assocGet]
    · by_cases hb : cb.2
      · by_cases hcc : cb.1 = c
        · simp [List.filterMap_cons, hb, assocGet, hcc]
        · simp only [List.filterMap_cons, if_pos hb, assocGet, if_neg hcc]
          exact ih hmem
      · simp only [List.filterMap_cons, if_neg hb]
        exact ih hmem

theorem assocGet_fit_classes_val (t : Table) (spec : ColSpec) {c : String} {cs : List Value}
    (h : assocGet (spec.filterMap (fun cb =>
        if cb.2 then some (cb.1, sortedDistinct (columnValues t cb.1)) else none)) c
      = some cs) : cs = sortedDistinct (columnValues t c) := by
  induction spec with
  | nil => cases h
  | cons cb rest ih =>
    by_cases hb : cb.2
    · by_cases hcc : cb.1 = c
      · simp only [List.filterMap_cons, if_pos hb, assocGet, if_pos hcc] at h
        cases h
        rw [hcc]
      · simp only [List.filterMap_cons, if_pos hb, assocGet, if_neg hcc] at h
        exact ih h
    · simp only [List.filterMap_cons, if_neg hb] at h
      exact ih h

theorem transformCell_ok_num {e : CategoricalEncoder} {r : Row} {cb : String × Bool}
    {w : Value} (hb : cb.2 = false) (h : transformCell e r cb = .ok w) :
    rowGet r cb.1 = some w := by
  unfold transformCell at h
  cases hv : rowGet r cb.1 with
  | none => simp [hv] at h
  | some v =>
    simp only [hv, hb, Bool.false_eq_true, if_false] at h
    cases h
    rfl

theorem transformCell_ok_cat {e : CategoricalEncoder} {r : Row} {cb : String × Bool}
    {w : Value} (hb : cb.2 = true) (h : transformCell e r cb = .ok w) :
    ∃ v cs, rowGet r cb.1 = some v ∧ assocGet e.classes cb.1 = some cs ∧
      v ∈ cs ∧ w = .vInt (cs.indexOf v) := by
  unfold transformCell at h
  cases hv : rowGet r cb.1 with
  | none => simp [hv] at h
  | some v =>
    simp only [hv, hb, if_true] at h
    cases hcs : assocGet e.classes cb.1 with
    | none => simp [hcs] at h
    | some cs =>
      simp only [hcs] at h
      by_cases hmem : v ∈ cs
      · simp only [if_pos hmem] at h
        cases h
        exact ⟨v, cs, rfl, rfl, hmem, rfl⟩
      · simp [if_neg hmem] at h

theorem transformCell_error_shape {e : CategoricalEncoder} {r : Row} {cb : String × Bool}
    {err : Err} (hsome : (rowGet r cb.1).isSome = true)
    (hcls : cb.2 = true → (assocGet e.classes cb.1).isSome = true)
    (h : transformCell e r cb = .error err) :
    ∃ v2, err = .unseenCategoryError cb.1 v2 := by
  unfold transformCell at h
  cases hv : rowGet r cb.1 with
  | none => simp [hv] at hsome
  | some v =>
    simp only [hv] at h
    by_cases hb : cb.2
    · simp only [hb, if_true] at h
      cases hcs : assocGet e.classes cb.1 with
      | none =>
        have hi := hcls hb
        rw [hcs] at hi
        simp at hi
      | some cs =>
        simp only [hcs] at h
        by_cases hmem : v ∈ cs
        · simp [if_pos hmem] at h
        · simp only [if_neg hmem] at h
          cases h
          exact ⟨v, rfl⟩
    · simp [hb] at h

theorem transformCell_unseen {e : CategoricalEncoder} {r : Row} {c : String} {v : Value}
    {cs : List Value} (hv : rowGet r c = some v) (hcs : assocGet e.classes c = some cs)
    (hun : v ∉ cs) :
    transformCell e r (c, true) = .error (.unseenCategoryError c v) := by
  unfold transformCell
  simp [hv, hcs, hun]

/-- C6: for every table and column spec, `fit_transform` produces output
identical to calling `fit` and then `transform` sequentially on the same
encoder (both on success, where the matrices coincide, and on failure,
where the same error is produced). -/
theorem fitTransform_eq_fit_then_transform (t : Table) (spec : ColSpec) :
    (∀ e, CategoricalEncoder.fit t spec = .ok e → fitTransform t spec = e.transform t) ∧
    (∀ err, CategoricalEncoder.fit t spec = .error err → fitTransform t spec = .error err) := by
  constructor <;> intro x hx <;> simp [fitTransform, hx, Except.bind]

/-- C5: `fit` is a deterministic function of its inputs; more strongly, its
result depends only on the set of values each column holds, so any two
tables with the same per-column values (in particular the same table twice,
or the same rows in a different order) fit to the same class ordering and
index assignment. -/
theorem fit_deterministic (t1 t2 : Table) (spec : ColSpec)
    (hmem : ∀ c v, v ∈ columnValues t1 c ↔ v ∈ columnValues t2 c)
    (h1 : conforms t1 spec) (h2 : conforms t2 spec) :
    CategoricalEncoder.fit t1 spec = CategoricalEncoder.fit t2 spec := by
  unfold CategoricalEncoder.fit
  by_cases hem : spec.isEmpty
  · simp [hem]
  · have p1 : (spec.all fun cb => t1.all fun r => (rowGet r cb.1).isSome) = true :=
      List.all_eq_true.mpr fun cb hcb => List.all_eq_true.mpr fun r hr => h1 cb hcb r hr
    have p2 : (spec.all fun cb => t2.all fun r => (rowGet r cb.1).isSome) = true :=
      List.all_eq_true.mpr fun cb hcb => List.all_eq_true.mpr fun r hr => h2 cb hcb r hr
    have hfun : (fun cb : String × Bool =>
        if cb.2 then some (cb.1, sortedDistinct (columnValues t1 cb.1)) else none) =
        (fun cb : String × Bool =>
          if cb.2 then some (cb.1, sortedDistinct (columnValues t2 cb.1)) else none) :=
      funext fun cb => by
        by_cases hb : cb.2 <;>
          simp [hb, sortedDistinct_canonical (fun v => hmem cb.1 v)]
    simp only [hem, p1, p2, if_false, if_true, Bool.false_eq_true, hfun]

/-- C2: a successful `fit_transform` yields a matrix with one row per input
row in input order, each row of exactly `len(column_spec)` cells, in which
every categorical cell is an integer code in `[0, num_classes - 1]` for
that column and every numeric cell is the input value passed through
unchanged. -/
theorem fitTransform_shape (t : Table) (spec : ColSpec) (m : List (List Value))
    (h : fitTransform t spec = .ok m) :
    m.length = t.length ∧
    ∃ e, CategoricalEncoder.fit t spec = .ok e ∧
      ∀ i (hi : i < t.length) (hm : i < m.length),
        (m.get ⟨i, hm⟩).length = spec.length ∧
        ∀ j (hj : j < spec.length) (hr : j < (m.get ⟨i, hm⟩).length),
          ((spec.get ⟨j, hj⟩).2 = true →
            ∃ (k : Nat) (cs : List Value),
              assocGet e.classes (spec.get ⟨j, hj⟩).1 = some cs ∧
              (m.get ⟨i, hm⟩).get ⟨j, hr⟩ = .vInt k ∧ k < cs.length) ∧
          ((spec.get ⟨j, hj⟩).2 = false →
            some ((m.get ⟨i, hm⟩).get ⟨j, hr⟩) = rowGet (t.get ⟨i, hi⟩) (spec.get ⟨j, hj⟩).1) := by
  unfold fitTransform at h
  cases hf : CategoricalEncoder.fit t spec with
  | error err => rw [hf] at h; cases h
  | ok e =>
    rw [hf] at h
    simp only [Except.bind] at h
    obtain ⟨hspec, _, _⟩ := fit_ok_eq hf
    subst hspec
    have hlen : m.length = t.length := mapME_ok_length h
    refine ⟨hlen, e, rfl, ?_⟩
    intro i hi hm
    have hrow := mapME_ok_get h i hi hm
    have hrlen : (m.get ⟨i, hm⟩).length = e.spec.length := mapME_ok_length hrow
    refine ⟨hrlen, ?_⟩
    intro j hj hr
    have hcell := mapME_ok_get hrow j hj hr
    constructor
    · intro hb
      obtain ⟨v, cs, _, hcs, hmem, hw⟩ := transformCell_ok_cat hb hcell
      exact ⟨cs.indexOf v, cs, hcs, hw, List.indexOf_lt_length.mpr hmem⟩
    · intro hb
      exact (transformCell_ok_num hb hcell).symm

/-- C1: against a fitted encoder, a transform input containing an unseen
value in a categorical column fails with `UnseenCategoryError` and produces
no output matrix at all. -/
theorem transform_unseen_rejected (t tr : Table) (spec : ColSpec)
    (e : CategoricalEncoder) (r : Row) (c : String) (v : Value) (cs : List Value)
    (hfit : CategoricalEncoder.fit t spec = .ok e)
    (hconf : conforms tr e.spec)
    (hr : r ∈ tr) (hcol : (c, true) ∈ e.spec)
    (hv : rowGet r c = some v)
    (hcs : assocGet e.classes c = some cs)
    (hun : v ∉ cs) :
    (∃ c2 v2, e.transform tr = .error (.unseenCategoryError c2 v2)) ∧
    ∀ out, e.transform tr ≠ .ok out := by
  obtain ⟨hspec, hclasses, _⟩ := fit_ok_eq hfit
  have hcls : ∀ cb ∈ e.spec, cb.2 = true → (assocGet e.classes cb.1).isSome = true := by
    intro cb hcb hb
    have : (cb.1, true) ∈ spec := by
      rw [← hspec]
      have : cb = (cb.1, true) := by
        cases cb
        simp_all
      rw [← this]
      exact hcb
    rw [hclasses, assocGet_fit_classes_mem t spec this]
    rfl
  have hnook : ∀ out, e.transform tr ≠ .ok out := by
    intro out hout
    obtain ⟨row, hrow⟩ := mapME_ok_mem hout r hr
    obtain ⟨w, hw⟩ := mapME_ok_mem hrow (c, true) hcol
    rw [transformCell_unseen hv hcs hun] at hw
    cases hw
  refine ⟨?_, hnook⟩
  cases hres : e.transform tr with
  | ok out => exact absurd hres (hnook out)
  | error err =>
    obtain ⟨r2, hr2, hrow2⟩ := mapME_error_mem hres
    obtain ⟨cb, hcb, hcell2⟩ := mapME_error_mem hrow2
    obtain ⟨v2, hv2⟩ :=
      transformCell_error_shape (hconf cb hcb r2 hr2) (hcls cb hcb) hcell2
    exact ⟨cb.1, v2, by rw [hv2]⟩

theorem invCell_transformCell {e : CategoricalEncoder} {cb : String × Bool} {r : Row}
    {w : Value} (h : transformCell e r cb = .ok w) :
    invCell e cb w = .ok ((rowGet r cb.1).getD .vNull) := by
  by_cases hb : cb.2
  · obtain ⟨v, cs, hv, hcs, hmem, rfl⟩ := transformCell_ok_cat hb h
    have hlt : cs.indexOf v < cs.length := List.indexOf_lt_length.mpr hmem
    have hnn : ¬ ((cs.indexOf v : Int) < 0) := by omega
    have htn : ((cs.indexOf v : Int)).toNat = cs.indexOf v := by omega
    simp only [invCell, hb, if_true, hcs, hv]
    simp [hnn, htn, List.getElem?_eq_getElem hlt, List.getElem_indexOf hlt]
  · have hb2 : cb.2 = false := by simpa using hb
    have hv := transformCell_ok_num hb2 h
    unfold invCell
    rw [if_neg hb, hv]
    rfl

theorem invCells_round {e : CategoricalEncoder} (specPart : ColSpec) (r : Row)
    (row : List Value) (h : mapME (transformCell e r) specPart = .ok row) :
    invCells e specPart row =
      .ok (specPart.map (fun cb => (rowGet r cb.1).getD .vNull)) := by
  induction specPart generalizing row with
  | nil =>
    cases row with
    | nil => rfl
    | cons w ws => simp [mapME] at h
  | cons cb sp ih =>
    simp only [mapME] at h
    cases hc : transformCell e r cb with
    | error err => simp [hc] at h
    | ok w =>
      cases hrest : mapME (transformCell e r) sp with
      | error err => simp [hc, hrest] at h
      | ok ws =>
        simp only [hc, hrest] at h
        cases h
        simp [invCells, invCell_transformCell hc, ih ws hrest]

/-- C7: whenever `transform` succeeds, `inverse_transform` of the produced
matrix recovers exactly the original values of the table at the fitted
columns — in particular the original categorical labels. -/
theorem transform_inv_round_trip (e : CategoricalEncoder) (t : Table)
    (m : List (List Value)) (htr : e.transform t = .ok m) :
    e.invTransform m = .ok (t.map (projectRow e.spec)) := by
  unfold CategoricalEncoder.invTransform
  apply mapME_congr_ok
  · simp [mapME_ok_length htr]
  · intro i hi hb
    have hrow := mapME_ok_get htr i (by simpa [mapME_ok_length htr] using hi) hi
    have := invCells_round e.spec (t.get ⟨i, _⟩) (m.get ⟨i, hi⟩) hrow
    rw [this]
    congr 1
    simp [projectRow]

/-- The spec's concrete scenario: column spec `[(gender, True), (tenure, False)]`. -/
def wSpec : ColSpec := [("gender", true), ("tenure", false)]

/-- The spec's concrete fit table: Male/5 then Female/10. -/
def wTab : Table :=
  [[("gender", Value.vStr "Male"), ("tenure", Value.vInt 5)],
   [("gender", Value.vStr "Female"), ("tenure", Value.vInt 10)]]

/-- The same two records in the opposite order. -/
def wTabRev : Table :=
  [[("gender", Value.vStr "Female"), ("tenure", Value.vInt 10)],
   [("gender", Value.vStr "Male"), ("tenure", Value.vInt 5)]]

/-- The encoder fitting `wTab` produces: classes for gender = [Female, Male]. -/
def wEnc : CategoricalEncoder :=
  ⟨wSpec, [("gender", [Value.vStr "Female", Value.vStr "Male"])]⟩

/-- The spec's unseen-category record `{gender: NonBinary, tenure: 3}`. -/
def wBadRow : Row := [("gender", Value.vStr "NonBinary"), ("tenure", Value.vInt 3)]

/-- The matrix `fit_transform` produces on `wTab`. -/
def wMat : List (List Value) := [[Value.vInt 1, Value.vInt 5], [Value.vInt 0, Value.vInt 10]]

theorem mem_columnValues_swap (r1 r2 : Row) (c : String) (v : Value) :
    v ∈ columnValues [r1, r2] c ↔ v ∈ columnValues [r2, r1] c := by
  simp only [columnValues, List.filterMap_cons, List.filterMap_nil]
  cases rowGet r1 c <;> cases rowGet r2 c <;> simp <;> tauto

theorem transform_unseen_rejected_witness :
    (∃ c2 v2, wEnc.transform [wBadRow] = Except.error (Err.unseenCategoryError c2 v2)) ∧
    ∀ out, wEnc.transform [wBadRow] ≠ Except.ok out :=
  transform_unseen_rejected wTab [wBadRow] wSpec wEnc wBadRow "gender"
    (Value.vStr "NonBinary") [Value.vStr "Female", Value.vStr "Male"]
    (by rfl) (by decide) (by decide) (by decide) (by rfl) (by rfl) (by decide)

theorem fitTransform_shape_witness :
    fitTransform wTab wSpec = Except.ok wMat ∧ wMat.length = wTab.length := by
  have h := fitTransform_shape wTab wSpec wMat (by rfl)
  exact ⟨by rfl, h.1⟩

theorem fit_deterministic_witness :
    CategoricalEncoder.fit wTabRev wSpec = CategoricalEncoder.fit wTab wSpec := by
  have hmem : ∀ c v, v ∈ columnValues wTabRev c ↔ v ∈ columnValues wTab c := by
    intro c v
    exact mem_columnValues_swap _ _ c v
  exact fit_deterministic wTabRev wTab wSpec hmem (by decide) (by decide)

theorem transform_inv_round_trip_witness :
    wEnc.invTransform wMat = Except.ok (wTab.map (projectRow wEnc.spec)) :=
  transform_inv_round_trip wEnc wTab wMat (by rfl)

/-- Modelled from the spec (section 4.2): the trained pipeline is an external
collaborator, "treated as an opaque scored-probability function"; its fitted
state is an opaque serializable blob whose only use is through
`predictScore`. -/
structure PipelineState where
  weights : List Int
deriving DecidableEq, Repr

/-- Numeric reading of an encoded cell, used by the opaque pipeline model. -/
def valueScore : Value → Int
  | .vInt n => n
  | .vStr s => (s.length : Int)
  | .vNull => 0

/-- Modelled from the spec (section 4.2 `predict_proba`): some fixed
deterministic scoring function of the pipeline state and an encoded row
(the concrete linear form is immaterial; every claim below uses it
opaquely). -/
def PipelineState.predictScore (p : PipelineState) (xs : List Value) : Int :=
  ((p.weights.zip xs).map (fun wv => wv.1 * valueScore wv.2)).foldr (· + ·) 0

/-- Modelled from the spec (section 4.3): the fitted local explainer, an
opaque serializable blob. -/
structure ExplainerState where
  blob : List Nat
deriving DecidableEq, Repr

/-- Modelled from the spec (section 3 / 4.4): the `ExplainedModel` artifact —
data, labels, model name, encoder state, pipeline state, explainer state and
the storage root (`data_dir`), as the notebook's constructor call passes
them. -/
structure ExplainedModel where
  data : Table
  labels : List Bool
  model_name : String
  categoricalencoder : CategoricalEncoder
  pipeline : PipelineState
  explainer : ExplainerState
  data_dir : String
deriving DecidableEq, Repr

/-- Modelled from the spec (section 4.4 Construct): validates that `data`
and `labels` have matching row counts and fails with `ValidationError`
otherwise. -/
def ExplainedModel.construct (data : Table) (labels : List Bool) (model_name : String)
    (ce : CategoricalEncoder) (p : PipelineState) (ex : ExplainerState)
    (data_dir : String) : Except Err ExplainedModel :=
  if data.length = labels.length then
    .ok ⟨data, labels, model_name, ce, p, ex, data_dir⟩
  else .error .validationError

/-- Modelled from the spec (section 4.4 `predict`): run the record through
`encoder.transform`, then through the pipeline's scoring function; any
encoder error propagates unmodified. -/
def ExplainedModel.predict (m : ExplainedModel) (r : Row) : Except Err Int :=
  (m.categoricalencoder.transform [r]).map (fun mat => m.pipeline.predictScore (mat.headD []))

/-- One serialized component of the persisted artifact. -/
inductive Component where
  | enc : CategoricalEncoder → Component
  | pipeState : PipelineState → Component
  | expl : ExplainerState → Component
deriving DecidableEq, Repr

/-- A key of the artifact store: storage root, model name, component file
name (spec section 4.4 allows "three keys of one artifact store"). -/
structure SKey where
  root : String
  model : String
  file : String
deriving DecidableEq, Repr

/-- The artifact store, newest entry first. -/
abbrev Store := List (SKey × Component)

/-- Write a key (later reads see the newest value). -/
def storePut (st : Store) (k : SKey) (c : Component) : Store := (k, c) :: st

/-- Modelled from the spec (section 4.4 `save`): serializes encoder state,
pipeline state and explainer state to three independent keys under
`storage_root/model_name`. -/
def ExplainedModel.save (m : ExplainedModel) (st : Store) : Store :=
  storePut
    (storePut
      (storePut st ⟨m.data_dir, m.model_name, "ce.pkl"⟩ (.enc m.categoricalencoder))
      ⟨m.data_dir, m.model_name, "pipe.pkl"⟩ (.pipeState m.pipeline))
    ⟨m.data_dir, m.model_name, "explainer.pkl"⟩ (.expl m.explainer)

/-- Modelled from the spec (section 4.4 `load`): inverse of save — reads the
three components back by name and fails with `NotFoundError` when any
required component is missing; the loaded artifact carries no training
table (it is not needed for prediction). -/
def ExplainedModel.load (st : Store) (model_name data_dir : String) :
    Except Err ExplainedModel :=
  match assocGet st ⟨data_dir, model_name, "ce.pkl"⟩,
      assocGet st ⟨data_dir, model_name, "pipe.pkl"⟩,
      assocGet st ⟨data_dir, model_name, "explainer.pkl"⟩ with
  | some (.enc ce), some (.pipeState p), some (.expl ex) =>
    .ok ⟨[], [], model_name, ce, p, ex, data_dir⟩
  | _, _, _ => .error .notFoundError

/-- C3: constructing an `ExplainedModel` fails with `ValidationError`
exactly when the row counts of `data` and `labels` differ, and succeeds
(with the given components stored) exactly when they match. -/
theorem construct_row_count_validation (d : Table) (l : List Bool) (n : String)
    (ce : CategoricalEncoder) (p : PipelineState) (ex : ExplainerState) (dir : String) :
    (ExplainedModel.construct d l n ce p ex dir = .error .validationError ↔
      d.length ≠ l.length) ∧
    (ExplainedModel.construct d l n ce p ex dir = .ok ⟨d, l, n, ce, p, ex, dir⟩ ↔
      d.length = l.length) := by
  unfold ExplainedModel.construct
  by_cases h : d.length = l.length <;> simp [h]

/-- C4: after `save()`, loading the same model name from the same storage
root succeeds and yields a model whose `predict` agrees with the pre-save
model's `predict` on every record (exact equality, which subsumes the
floating-point-tolerance phrasing). -/
theorem save_load_round_trip_predict (d : Table) (l : List Bool) (n : String)
    (ce : CategoricalEncoder) (p : PipelineState) (ex : ExplainerState) (dir : String)
    (m : ExplainedModel) (st : Store)
    (hc : ExplainedModel.construct d l n ce p ex dir = .ok m) :
    ∃ m2, ExplainedModel.load (m.save st) n dir = .ok m2 ∧
      ∀ r, m2.predict r = m.predict r := by
  unfold ExplainedModel.construct at hc
  split_ifs at hc
  cases hc
  refine ⟨⟨[], [], n, ce, p, ex, dir⟩, ?_, ?_⟩
  · simp [ExplainedModel.load, ExplainedModel.save, storePut, assocGet]
  · intro r
    simp [ExplainedModel.predict]

/-- A concrete pipeline state for the witness. -/
def wPipe : PipelineState := ⟨[2, 3]⟩

/-- A concrete explainer state for the witness. -/
def wExpl : ExplainerState := ⟨[7]⟩

/-- The artifact of the notebook's construction call, on a trivially
validated empty data/label pair. -/
def wModel : ExplainedModel := ⟨[], [], "telco_linear", wEnc, wPipe, wExpl, "/home/cdsw"⟩

theorem save_load_round_trip_predict_witness :
    ∃ m2, ExplainedModel.load (wModel.save []) "telco_linear" "/home/cdsw" = .ok m2 ∧
      ∀ r, m2.predict r = wModel.predict r :=
  save_load_round_trip_predict [] [] "telco_linear" wEnc wPipe wExpl "/home/cdsw"
    wModel [] (by rfl)

/-- A path of the persisted-artifact layout: storage root, model name, file
name. -/
structure FPath where
  root : String
  model : String
  file : String
deriving DecidableEq, Repr

/-- The byte-level file store (newest write first). -/
abbrev FStore := List (FPath × List Nat)

/-- Write bytes to a path. -/
def fput (st : FStore) (p : FPath) (b : List Nat) : FStore := (p, b) :: st

/-- The primitive file operations of a two-phase save.  A byte write is not
atomic (a crash may leave any prefix of the bytes on disk); a rename is
atomic. -/
inductive FOp where
  | fwrite (p : FPath) (bytes : List Nat)
  | frename (src dst : FPath)

def applyOp (st : FStore) : FOp → FStore
  | .fwrite p b => fput st p b
  | .frename src dst =>
    match assocGet st src with
    | some b => fput st dst b
    | none => st

def runOps (st : FStore) (ops : List FOp) : FStore := ops.foldl applyOp st

/-- The stores a crash during `ops` can leave behind: a clean stop after `k`
operations, or such a stop plus a partial prefix of an interrupted write
(renames cannot be interrupted part-way). -/
def crashed (st : FStore) (ops : List FOp) (st2 : FStore) : Prop :=
  ∃ k, st2 = runOps st (ops.take k) ∨
    ∃ p b j, ops.get? k = some (.fwrite p b) ∧
      st2 = fput (runOps st (ops.take k)) p (b.take j)

/-- Byte encoding of a string: length, then character codes. -/
def encodeStr (s : String) : List Nat := s.data.length :: s.data.map Char.toNat

/-- Byte encoding of a cell value. -/
def encodeValue : Value → List Nat
  | .vNull => [0]
  | .vInt n => [1, if n < 0 then 1 else 0, n.natAbs]
  | .vStr s => 2 :: encodeStr s

/-- Byte encoding of a list: length, then the encoded elements. -/
def encodeListNat {α : Type} (f : α → List Nat) (l : List α) : List Nat :=
  l.length :: (l.map f).foldr (· ++ ·) []

/-- Byte encoding of one component's fitted state. -/
def encodeComp : Component → List Nat
  | .enc e =>
    0 :: encodeListNat (fun cb => encodeStr cb.1 ++ [if cb.2 then 1 else 0]) e.spec
      ++ encodeListNat (fun ccs => encodeStr ccs.1 ++ encodeListNat encodeValue ccs.2)
        e.classes
  | .pipeState p =>
    1 :: encodeListNat (fun n : Int => [if n < 0 then 1 else 0, n.natAbs]) p.weights
  | .expl ex => 2 :: encodeListNat (fun n => [n]) ex.blob

/-- Length-framed serialized form: payload length first, so that a reader
can check on load that the payload is complete (the spec's "checksum on
load"). -/
def serializeComp (c : Component) : List Nat := (encodeComp c).length :: encodeComp c

/-- Load-time completeness validation of a stored byte string. -/
def wellFramed : List Nat → Bool
  | [] => false
  | n :: rest => rest.length == n

/-- Modelled from the spec (sections 4.4 / 9): reading one component's file;
a missing file or one failing the load-time completeness check fails with
`NotFoundError`. -/
def loadBytes (st : FStore) (p : FPath) : Except Err (List Nat) :=
  match assocGet st p with
  | none => .error .notFoundError
  | some bs => if wellFramed bs then .ok bs else .error .notFoundError

theorem wellFramed_serialize (c : Component) : wellFramed (serializeComp c) = true := by
  simp [wellFramed, serializeComp]

/-- A strict prefix of a framed serialization never validates: framing makes
partial writes detectable. -/
theorem take_serialize_framed_iff (c : Component) (j : Nat)
    (h : wellFramed ((serializeComp c).take j) = true) :
    (serializeComp c).take j = serializeComp c := by
  unfold serializeComp at h ⊢
  cases j with
  | zero => simp [wellFramed] at h
  | succ j2 =>
    simp only [List.take_succ_cons] at h ⊢
    have hlen : (List.take j2 (encodeComp c)).length = (encodeComp c).length := by
      simpa [wellFramed] using h
    have hle : (encodeComp c).length ≤ j2 := by
      rw [List.length_take] at hlen
      omega
    rw [List.take_of_length_le hle]

/-- Modelled from the spec (sections 4.4 / 9 `save`): the spec-prescribed
two-phase (write-temporary, then commit-rename) operation sequence, one
phase pair per component. -/
def saveOps (m : ExplainedModel) : List FOp :=
  [.fwrite ⟨m.data_dir, m.model_name, "ce.pkl.tmp"⟩
      (serializeComp (.enc m.categoricalencoder)),
   .frename ⟨m.data_dir, m.model_name, "ce.pkl.tmp"⟩
      ⟨m.data_dir, m.model_name, "ce.pkl"⟩,
   .fwrite ⟨m.data_dir, m.model_name, "pipe.pkl.tmp"⟩
      (serializeComp (.pipeState m.pipeline)),
   .frename ⟨m.data_dir, m.model_name, "pipe.pkl.tmp"⟩
      ⟨m.data_dir, m.model_name, "pipe.pkl"⟩,
   .fwrite ⟨m.data_dir, m.model_name, "explainer.pkl.tmp"⟩
      (serializeComp (.expl m.explainer)),
   .frename ⟨m.data_dir, m.model_name, "explainer.pkl.tmp"⟩
      ⟨m.data_dir, m.model_name, "explainer.pkl"⟩]

/-- C8: the two-phase save is atomic per component: whatever prefix of the
save a crash allows (including one interrupted mid-write), each component's
final path either is absent / fails the load-time completeness check (the
load fails with `NotFoundError`) or holds that component's complete
serialized state — never a partial write silently treated as valid. -/
theorem save_atomic_per_component (st : FStore) (m : ExplainedModel) (st2 : FStore)
    (file : String) (comp : Component)
    (hcomp : (file, comp) ∈
      [("ce.pkl", Component.enc m.categoricalencoder),
       ("pipe.pkl", Component.pipeState m.pipeline),
       ("explainer.pkl", Component.expl m.explainer)])
    (hfresh : assocGet st ⟨m.data_dir, m.model_name, file⟩ = none)
    (hcr : crashed st (saveOps m) st2) :
    loadBytes st2 ⟨m.data_dir, m.model_name, file⟩ = .error .notFoundError ∨
    loadBytes st2 ⟨m.data_dir, m.model_name, file⟩ = .ok (serializeComp comp) := by
  simp only [List.mem_cons, List.not_mem_nil, or_false, Prod.mk.injEq] at hcomp
  obtain ⟨k, hk | ⟨p, b, j, hop, hst⟩⟩ := hcr
  · subst hk
    rcases hcomp with ⟨rfl, rfl⟩ | ⟨rfl, rfl⟩ | ⟨rfl, rfl⟩ <;>
      rcases k with _|_|_|_|_|_|_|k <;>
        simp [saveOps, runOps, applyOp, fput, assocGet, loadBytes, hfresh,
          wellFramed_serialize, List.take]
  · rcases k with _|_|_|_|_|_|_|k
    all_goals simp [saveOps, List.get?] at hop
    all_goals obtain ⟨rfl, rfl⟩ := hop
    all_goals subst hst
    all_goals rcases hcomp with ⟨rfl, rfl⟩ | ⟨rfl, rfl⟩ | ⟨rfl, rfl⟩ <;>
      simp [saveOps, runOps, applyOp, fput, assocGet, loadBytes, hfresh,
        wellFramed_serialize, List.take]

theorem save_atomic_per_component_witness :
    loadBytes (runOps [] ((saveOps wModel).take 2)) ⟨"/home/cdsw", "telco_linear", "ce.pkl"⟩
        = .error .notFoundError ∨
    loadBytes (runOps [] ((saveOps wModel).take 2)) ⟨"/home/cdsw", "telco_linear", "ce.pkl"⟩
        = .ok (serializeComp (.enc wEnc)) :=
  save_atomic_per_component [] wModel (runOps [] ((saveOps wModel).take 2))
    "ce.pkl" (.enc wEnc) (by decide) (by rfl) ⟨2, Or.inl rfl⟩

/-- Translated from `3_model_building.ipynb`:
the df.replace call that maps cells matching the regex caret-backslash-s-dollar
to NaN — that regular expression
matches a cell that is a string of exactly ONE whitespace character (the
anchors leave no room for more), so only such cells become NaN. -/
def matchesBlankRe (v : Value) : Bool :=
  match v with
  | .vStr s =>
    match s.data with
    | [c] => c.isWhitespace
    | _ => false
  | _ => false

/-- One cell after the `replace`: a single-whitespace string becomes null. -/
def cellReplaceBlank (v : Value) : Value := if matchesBlankRe v then .vNull else v

/-- One row after the `replace`. -/
def rowReplaceBlank (r : Row) : Row := r.map (fun p => (p.1, cellReplaceBlank p.2))

/-- `dropna()`: drop a row holding any null cell. -/
def rowHasNull (r : Row) : Bool := r.any (fun p => p.2 == Value.vNull)

/-- Translated from the notebook:
the df.replace call above followed by dropna() — the filtering the
notebook performs before splitting off labels and fitting. -/
def dropBlankRows (t : Table) : Table :=
  (t.map rowReplaceBlank).filter (fun r => ! rowHasNull r)

/-- A row the code drops: one with a null cell or a single-whitespace-string
cell in any column. -/
def rowHasBlankOrNull (r : Row) : Bool :=
  r.any (fun p => p.2 == Value.vNull || matchesBlankRe p.2)

theorem rowHasNull_rowReplaceBlank (r : Row) :
    rowHasNull (rowReplaceBlank r) = rowHasBlankOrNull r := by
  induction r with
  | nil => rfl
  | cons p rest ih =>
    simp only [rowReplaceBlank, rowHasNull, rowHasBlankOrNull, List.map_cons,
      List.any_cons] at *
    rw [ih]
    congr 1
    by_cases h : matchesBlankRe p.2
    · simp [cellReplaceBlank, h]
    · simp [cellReplaceBlank, h]

theorem rowReplaceBlank_id_of_clean (r : Row) (h : rowHasBlankOrNull r = false) :
    rowReplaceBlank r = r := by
  induction r with
  | nil => rfl
  | cons p rest ih =>
    simp only [rowHasBlankOrNull, List.any_cons, Bool.or_eq_false_iff] at h
    obtain ⟨⟨_, hm⟩, hrest⟩ := h
    simp only [rowReplaceBlank, List.map_cons]
    rw [show cellReplaceBlank p.2 = p.2 from by simp [cellReplaceBlank, hm]]
    rw [show (p.1, p.2) = p from rfl]
    exact congrArg (p :: ·) (ih hrest)

/-- C9 (amended): the notebook's pre-fit filtering drops exactly the rows
with a null cell (a null label included) or a cell that is a string of one
single whitespace character, and keeps every other row unchanged; hence no
such cell survives to fitting.  (A whitespace-only string of any other
length is NOT dropped — see the counterexample.) -/
theorem dropBlankRows_drops_exactly (t : Table) :
    dropBlankRows t = t.filter (fun r => ! rowHasBlankOrNull r) ∧
    ∀ r ∈ dropBlankRows t, ∀ p ∈ r, p.2 ≠ Value.vNull ∧ matchesBlankRe p.2 = false := by
  have hmain : dropBlankRows t = t.filter (fun r => ! rowHasBlankOrNull r) := by
    induction t with
    | nil => rfl
    | cons r rest ih =>
      simp only [dropBlankRows, List.map_cons, List.filter_cons] at *
      rw [rowHasNull_rowReplaceBlank]
      by_cases h : rowHasBlankOrNull r
      · have hcond : ¬ ((!rowHasBlankOrNull r) = true) := by simp [h]
        rw [if_neg hcond, if_neg hcond]
        exact ih
      · have h2 : rowHasBlankOrNull r = false := by simpa using h
        have hcond : (!rowHasBlankOrNull r) = true := by simp [h2]
        rw [if_pos hcond, if_pos hcond, rowReplaceBlank_id_of_clean r h2]
        exact congrArg (r :: ·) ih
  refine ⟨hmain, ?_⟩
  intro r hr p hp
  rw [hmain] at hr
  have hclean : rowHasBlankOrNull r = false := by
    have h3 := List.of_mem_filter hr
    simp only [Bool.not_eq_true'] at h3
    exact h3
  have h4 := List.any_eq_false.mp hclean p hp
  simp only [Bool.not_eq_true, Bool.or_eq_false_iff, beq_eq_false_iff_ne] at h4
  exact h4

/-- A record with a two-space `TotalCharges` value (whitespace-only but not
a single character). -/
def badRow : Row := [("TotalCharges", Value.vStr "  "), ("Churn", Value.vStr "No")]

/-- C9 counterexample: a row with a whitespace-only value ("  ", two
spaces) in a column is NOT dropped by the notebook's filtering — it reaches
fitting — refuting the claim for general blank/whitespace-only values. -/
theorem dropBlankRows_keeps_double_space :
    dropBlankRows [badRow] = [badRow] ∧
    rowGet badRow "TotalCharges" = some (Value.vStr "  ") ∧
    "  ".data.all Char.isWhitespace = true ∧ "  " ≠ "" := by
  refine ⟨by decide, by decide, by decide, by decide⟩

/-- Translated from the notebook:
`data.replace({'SeniorCitizen': {1: 'Yes', 0: 'No'}})` — the value recode
applied to the SeniorCitizen column. -/
def seniorRecodeValue : Value → Value
  | .vInt 1 => .vStr "Yes"
  | .vInt 0 => .vStr "No"
  | v => v

/-- The recode as applied cell-wise: only the SeniorCitizen column is
touched. -/
def recodeCell (c : String) (v : Value) : Value :=
  if c = "SeniorCitizen" then seniorRecodeValue v else v

def recodeRow (r : Row) : Row := r.map (fun p => (p.1, recodeCell p.1 p.2))

/-- The feature table the notebook passes to `fit_transform`: the dropped
rows' survivors with SeniorCitizen recoded (column projection to the spec's
columns is done by the encoder itself here). -/
def buildData (t : Table) : Table := t.map recodeRow

/-- Translated from the notebook: `labels = (labels == 'Yes')` with
`labels = df['Churn']` — the boolean label vector, aligned by row
position. -/
def buildLabels (t : Table) : List Bool :=
  t.map (fun r => rowGet r "Churn" == some (Value.vStr "Yes"))

theorem rowGet_map_cell (g : String → Value → Value) (r : Row) (c : String) :
    rowGet (r.map (fun p => (p.1, g p.1 p.2))) c = (rowGet r c).map (g c) := by
  induction r with
  | nil => rfl
  | cons p rest ih =>
    by_cases h : p.1 = c
    · simp [rowGet, assocGet, h]
    · simp only [rowGet, assocGet, List.map_cons] at *
      rw [if_neg h, if_neg h]
      exact ih

theorem columnValues_buildData (t : Table) (c : String) :
    columnValues (buildData t) c = (columnValues t c).map (recodeCell c) := by
  induction t with
  | nil => rfl
  | cons r rest ih =>
    simp only [buildData, columnValues, List.map_cons, List.filterMap_cons] at *
    rw [show rowGet (recodeRow r) c = (rowGet r c).map (recodeCell c) from
      rowGet_map_cell recodeCell r c]
    cases hv : rowGet r c with
    | none => simpa using ih
    | some v => simpa using ih

/-- C10: the notebook's preprocessing recodes SeniorCitizen integer values
1/0 to the strings Yes/No before fitting (other values pass through), so
when the raw column held only 0/1 the fitted class list for SeniorCitizen
holds only the strings No/Yes — an integer 0 or 1 is then an unseen
category — and the label vector holds true at row i exactly when row i of
the surviving table has Churn equal to the exact string Yes. -/
theorem senior_citizen_recode_and_labels (t : Table) (spec : ColSpec)
    (e : CategoricalEncoder) (cs : List Value)
    (h01 : ∀ v ∈ columnValues t "SeniorCitizen", v = .vInt 0 ∨ v = .vInt 1)
    (hfit : CategoricalEncoder.fit (buildData t) spec = .ok e)
    (hcs : assocGet e.classes "SeniorCitizen" = some cs) :
    seniorRecodeValue (.vInt 1) = .vStr "Yes" ∧
    seniorRecodeValue (.vInt 0) = .vStr "No" ∧
    (∀ r : Row, rowGet (recodeRow r) "SeniorCitizen"
        = (rowGet r "SeniorCitizen").map seniorRecodeValue) ∧
    (∀ w ∈ cs, w = .vStr "No" ∨ w = .vStr "Yes") ∧
    Value.vInt 0 ∉ cs ∧ Value.vInt 1 ∉ cs ∧
    ∀ i (hi : i < t.length) (hl : i < (buildLabels t).length),
      ((buildLabels t).get ⟨i, hl⟩ = true ↔
        rowGet (t.get ⟨i, hi⟩) "Churn" = some (Value.vStr "Yes")) := by
  obtain ⟨_, hclasses, _⟩ := fit_ok_eq hfit
  rw [hclasses] at hcs
  have hcsval : cs = sortedDistinct (columnValues (buildData t) "SeniorCitizen") :=
    assocGet_fit_classes_val (buildData t) spec hcs
  have hmemcs : ∀ w ∈ cs, w = Value.vStr "No" ∨ w = Value.vStr "Yes" := by
    intro w hw
    rw [hcsval] at hw
    have hw2 := mem_sortedDistinct.mp hw
    rw [columnValues_buildData] at hw2
    obtain ⟨v, hv, rfl⟩ := List.mem_map.mp hw2
    rcases h01 v hv with rfl | rfl
    · exact Or.inl (by simp [recodeCell, seniorRecodeValue])
    · exact Or.inr (by simp [recodeCell, seniorRecodeValue])
  refine ⟨rfl, rfl, ?_, hmemcs, ?_, ?_, ?_⟩
  · intro r
    unfold recodeRow
    rw [rowGet_map_cell recodeCell r "SeniorCitizen",
      show recodeCell "SeniorCitizen" = seniorRecodeValue from
        funext fun v => by simp [recodeCell]]
  · intro hin
    rcases hmemcs _ hin with h | h <;> cases h
  · intro hin
    rcases hmemcs _ hin with h | h <;> cases h
  · intro i hi hl
    simp only [buildLabels, List.get_map]
    exact beq_iff_eq
/-- A raw two-record table with integer SeniorCitizen values. -/
def tSenior : Table :=
  [[("SeniorCitizen", Value.vInt 1), ("Churn", Value.vStr "Yes")],
   [("SeniorCitizen", Value.vInt 0), ("Churn", Value.vStr "No")]]

/-- A one-column spec flagging SeniorCitizen categorical. -/
def specSenior : ColSpec := [("SeniorCitizen", true)]

/-- The encoder fitted on the recoded `tSenior`. -/
def eSenior : CategoricalEncoder :=
  ⟨specSenior, [("SeniorCitizen", [Value.vStr "No", Value.vStr "Yes"])]⟩

/-- Its SeniorCitizen class list. -/
def csSenior : List Value := [Value.vStr "No", Value.vStr "Yes"]

theorem senior_citizen_recode_and_labels_witness :
    Value.vInt 0 ∉ csSenior ∧ Value.vInt 1 ∉ csSenior := by
  have h := senior_citizen_recode_and_labels tSenior specSenior eSenior csSenior
    (by decide) (by rfl) (by rfl)
  exact ⟨h.2.2.2.2.1, h.2.2.2.2.2.1⟩

end Churn
